import Mathlib

/-!
Shallow embedding of the LevelDB write-ahead-log writer
(`db/log_writer.cc`, namespace `leveldb::log`) together with a byte-level
parser for the block/record format of the spec (§6), and proofs of the
spec claims about `Writer::AddRecord` / `Writer::EmitPhysicalRecord`.

Bytes are modelled as `Nat` (each value intended `< 256`), machine
integers as `Int`/`Nat` with explicit `% 2 ^ 32` where 32-bit overflow
matters.  The destination `WritableFile` is modelled as an append-only
byte list plus an oracle schedule of results consumed by successive
`Append`/`Flush` calls, and a ghost log of the operations performed.
-/

namespace LevelDBLog

/-- Modelled from the spec (§3): `db/log_format.h` is not in `src/`.
Block size constant `kBlockSize` = 32768 (a C++ `int`). -/
def kBlockSize : Int := 32768

/-- Modelled from the spec (§3): header is exactly 7 bytes
(4-byte crc, 2-byte length, 1-byte type), `kHeaderSize` = 4 + 2 + 1. -/
def kHeaderSize : Int := 7

/-- Modelled from the spec (§3): record type tag `Full` = 1. -/
def kFullType : Nat := 1

/-- Modelled from the spec (§3): record type tag `First` = 2. -/
def kFirstType : Nat := 2

/-- Modelled from the spec (§3): record type tag `Middle` = 3. -/
def kMiddleType : Nat := 3

/-- Modelled from the spec (§3): record type tag `Last` = 4. -/
def kLastType : Nat := 4

/-- Modelled from the spec (§3): the largest defined record type tag
(`kMaxRecordType` = `kLastType`). -/
def kMaxRecordType : Nat := 4

namespace crc32c

/-- Modelled from the spec (§3): `util/crc32c` is not in `src/`.
Reflected polynomial of the Castagnoli CRC-32 ("crc32c"). -/
def kPoly : Nat := 0x82F63B78

/-- One bit step of the bitwise reflected CRC-32C computation. -/
def crcBit (c : Nat) : Nat :=
  if c % 2 = 1 then (c >>> 1) ^^^ kPoly else c >>> 1

/-- One byte step: xor the byte into the low bits, then eight bit steps. -/
def crcByte (c b : Nat) : Nat :=
  crcBit (crcBit (crcBit (crcBit (crcBit (crcBit (crcBit (crcBit (c ^^^ b % 256))))))))

/-- Modelled from the spec (§3, §6): `crc32c::Extend(init_crc, data, n)` —
continue a CRC whose current value is `crc` over further bytes `data`. -/
def Extend (crc : Nat) (data : List Nat) : Nat :=
  (data.foldl crcByte (crc ^^^ 0xFFFFFFFF)) ^^^ 0xFFFFFFFF

/-- Modelled from the spec (§3, §6): `crc32c::Value(data, n)` — the CRC-32C
of `data`. -/
def Value (data : List Nat) : Nat :=
  Extend 0 data

/-- Modelled from the spec (§3, §6): `crc32c::Mask` — the documented
reversible storage transform (rotate right by 15, add a delta constant),
in 32-bit unsigned arithmetic. -/
def Mask (crc : Nat) : Nat :=
  (((crc >>> 15) ||| ((crc <<< 17) % 2 ^ 32)) + 0xa282ead8) % 2 ^ 32

end crc32c

/-- Modelled from the spec (§6): `util/coding.h` is not in `src/`.
`EncodeFixed32`: a 32-bit value as 4 little-endian bytes. -/
def encodeFixed32 (v : Nat) : List Nat :=
  [v % 256, (v >>> 8) % 256, (v >>> 16) % 256, (v >>> 24) % 256]

/-- Ghost tag distinguishing the call sites of the destination file's
operations: the block-trailer padding append (log_writer.cc line 52), the
header append (line 116), the payload append (line 119) and the flush
(line 121). -/
inductive OpKind where
  | pad
  | header
  | payload
  | flush
deriving DecidableEq, Repr

/-- The destination `WritableFile` (an external collaborator of the spec,
§6): an append-only byte sequence `written`, an oracle `results` giving
the outcome of each successive `Append`/`Flush` call (`none` = OK,
`some e` = I/O error `e`; an exhausted schedule means every further call
succeeds), and a ghost `log` of the operations performed. -/
structure WFile where
  written : List Nat
  results : List (Option Nat)
  log : List (OpKind × Option Nat)
deriving DecidableEq, Repr

/-- Perform one `Append` (with bytes `data`) or `Flush` (with `data = []`)
against the file: consume the next scheduled result; on success the bytes
are appended, on failure nothing is written. -/
def WFile.doOp (f : WFile) (k : OpKind) (data : List Nat) : WFile × Option Nat :=
  match f.results with
  | [] => (⟨f.written ++ data, [], f.log ++ [(k, none)]⟩, none)
  | none :: rest => (⟨f.written ++ data, rest, f.log ++ [(k, none)]⟩, none)
  | some e :: rest => (⟨f.written, rest, f.log ++ [(k, some e)]⟩, some e)

/-- The log `Writer` state (log_writer.h): the destination file handle and
the current block offset (a C++ `int`).  The per-type checksum table
`type_crc_` computed by the constructor is the immutable function
`typeCrc` below. -/
structure Writer where
  dest : WFile
  block_offset : Int
deriving DecidableEq, Repr

/-- `Writer::Writer(dest)` (log_writer.cc lines 15-23): initial block
offset 0.  The constructor loop fills `type_crc_[i] = crc32c::Value(&t, 1)`
for `0 ≤ i ≤ kMaxRecordType`; being immutable it is modelled as the
function `typeCrc`. -/
def Writer.mk0 (dest : WFile) : Writer :=
  ⟨dest, 0⟩

/-- The precomputed checksum table entry for type tag `t`:
`type_crc_[t] = crc32c::Value(&t, 1)` (log_writer.cc line 21). -/
def typeCrc (t : Nat) : Nat :=
  crc32c.Value [t]

/-- The 7 header bytes built by `Writer::EmitPhysicalRecord`
(log_writer.cc lines 97-112): masked CRC-32C of type byte and payload as
4 little-endian bytes, then the payload length `n` as 2 little-endian
bytes (`n & 0xff`, `char(n >> 8)`), then the type tag byte. -/
def headerBytes (t : Nat) (frag : List Nat) : List Nat :=
  encodeFixed32 (crc32c.Mask (crc32c.Extend (typeCrc t) frag)) ++
    [frag.length % 256, (frag.length >>> 8) % 256, t % 256]

/-- `Writer::EmitPhysicalRecord(t, ptr, n)` (log_writer.cc lines 93-127),
with the fragment `ptr[0..n)` passed as the list `frag`: append the
header, then (if that succeeded) the payload, then (if that succeeded)
flush; `block_offset_ += kHeaderSize + n` regardless of the outcomes;
return the first failure. -/
def emitPhysicalRecord (w : Writer) (t : Nat) (frag : List Nat) : Writer × Option Nat :=
  let off2 := w.block_offset + kHeaderSize + (frag.length : Int)
  let r1 := w.dest.doOp .header (headerBytes t frag)
  match r1.2 with
  | some e => (⟨r1.1, off2⟩, some e)
  | none =>
    let r2 := r1.1.doOp .payload frag
    match r2.2 with
    | some e => (⟨r2.1, off2⟩, some e)
    | none =>
      let r3 := r2.1.doOp .flush []
      (⟨r3.1, off2⟩, r3.2)

/-- The block-switch step at the top of each `AddRecord` loop iteration
(log_writer.cc lines 42-56): with `leftover = kBlockSize - block_offset_`,
if `leftover < kHeaderSize` then (if `leftover > 0`) append `leftover`
zero bytes as a trailer — the returned `Status` of that `Append` is
discarded by the source — and reset `block_offset_ = 0`. -/
def switchBlock (w : Writer) : Writer :=
  let leftover := kBlockSize - w.block_offset
  if leftover < kHeaderSize then
    if 0 < leftover then
      ⟨(w.dest.doOp .pad (List.replicate leftover.toNat 0)).1, 0⟩
    else
      ⟨w.dest, 0⟩
  else
    w

/-- The space available for payload bytes after the header in the current
block: `avail = kBlockSize - block_offset_ - kHeaderSize` (line 61), a
C++ `size_t`; nonnegative whenever the source's invariant assert on
line 59 holds. -/
def availOf (off1 : Int) : Nat :=
  (kBlockSize - off1 - kHeaderSize).toNat

/-- The fragment type selection of log_writer.cc lines 65-80:
`begin && end → kFullType`, `begin → kFirstType`, `end → kLastType`,
otherwise `kMiddleType`. -/
def recTypeOf (isBegin isEnd : Bool) : Nat :=
  if isBegin && isEnd then kFullType
  else if isBegin then kFirstType
  else if isEnd then kLastType
  else kMiddleType

/-- The fragmentation do-while loop of `Writer::AddRecord`
(log_writer.cc lines 39-89), as a fueled recursion; `fuel` bounds the
number of iterations and is chosen large enough by `addRecord` (the loop
needs at most `data.length + 1` iterations, plus one degenerate
zero-length fragment when the initial offset leaves exactly
`kHeaderSize` bytes in the block). -/
def addRecordGo (fuel : Nat) (w : Writer) (data : List Nat) (isBegin : Bool) :
    Writer × Option Nat :=
  match fuel with
  | 0 => (w, none)
  | fuel + 1 =>
    let w1 := switchBlock w
    let avail := availOf w1.block_offset
    let fragLen := if data.length < avail then data.length else avail
    let isEnd : Bool := data.length == fragLen
    let r := emitPhysicalRecord w1 (recTypeOf isBegin isEnd) (data.take fragLen)
    let rest := data.drop fragLen
    match r.2 with
    | some e => (r.1, some e)
    | none => if rest = [] then (r.1, none) else addRecordGo fuel r.1 rest false

/-- `Writer::AddRecord(slice)` (log_writer.cc lines 28-91): fragment the
payload and emit it, iterating at least once so an empty payload still
produces a single zero-length record. -/
def addRecord (w : Writer) (data : List Nat) : Writer × Option Nat :=
  addRecordGo (data.length + 3) w data true

/-- Trailer bytes written by the block-switch step starting from block
offset `off`: `leftover` zero bytes when `0 < leftover < kHeaderSize`,
nothing otherwise. -/
def padOf (off : Int) : List Nat :=
  if kBlockSize - off < kHeaderSize ∧ 0 < kBlockSize - off then
    List.replicate (kBlockSize - off).toNat 0
  else
    []

/-- Block offset after the block-switch step. -/
def switchOff (off : Int) : Int :=
  if kBlockSize - off < kHeaderSize then 0 else off

/-- Pure account of the byte stream produced by the `AddRecord` loop when
every file operation succeeds: returns the emitted bytes, the trace of
`(emit block offset, record type, fragment)` triples passed to
`EmitPhysicalRecord`, and the final block offset.  Mirrors `addRecordGo`
iteration for iteration. -/
def runPure (fuel : Nat) (off : Int) (data : List Nat) (isBegin : Bool) :
    List Nat × List (Int × Nat × List Nat) × Int :=
  match fuel with
  | 0 => ([], [], off)
  | fuel + 1 =>
    let off1 := switchOff off
    let avail := availOf off1
    let fragLen := if data.length < avail then data.length else avail
    let isEnd : Bool := data.length == fragLen
    let t := recTypeOf isBegin isEnd
    let frag := data.take fragLen
    let rest := data.drop fragLen
    if rest = [] then
      (padOf off ++ headerBytes t frag ++ frag, [(off1, t, frag)],
        off1 + kHeaderSize + (fragLen : Int))
    else
      let r := runPure fuel (off1 + kHeaderSize + (fragLen : Int)) rest false
      (padOf off ++ headerBytes t frag ++ frag ++ r.1, (off1, t, frag) :: r.2.1, r.2.2)

/-- Read one physical record of the §6 format at offset `off1` of the
current block: 4-byte little-endian stored checksum, 2-byte little-endian
length, type byte, then the payload; reject (`none`) reserved type tags
(0 or above the maximum defined tag), records that would overrun the
block, truncated payloads and checksum mismatches; running out of bytes
inside the header is acceptable end of file.  `next` continues parsing
after the record. -/
def parseRec (next : Int → List Nat → Option (List (Nat × List Nat)))
    (off1 : Int) (bytes : List Nat) : Option (List (Nat × List Nat)) :=
  match bytes with
  | b0 :: b1 :: b2 :: b3 :: b4 :: b5 :: b6 :: tail =>
    let n := b4 + 256 * b5
    let t := b6
    if t = 0 ∨ kMaxRecordType < t then none
    else if kBlockSize < off1 + kHeaderSize + (n : Int) then none
    else if tail.length < n then none
    else if b0 + 256 * b1 + 65536 * b2 + 16777216 * b3 =
        crc32c.Mask (crc32c.Value (t :: tail.take n)) then
      match next (off1 + kHeaderSize + (n : Int)) (tail.drop n) with
      | some rs => some ((t, tail.take n) :: rs)
      | none => none
    else none
  | _ => some []

/-- A parser for the on-disk format of §6, consuming a byte stream that
starts at offset `off` within a block.  Each step skips the zero trailer
of the current block when fewer than `kHeaderSize` bytes remain in it
(rejecting a non-zero trailer), then reads one physical record via
`parseRec`; an empty stream is a complete parse. -/
def parseGo (fuel : Nat) (off : Int) (bytes : List Nat) :
    Option (List (Nat × List Nat)) :=
  match fuel with
  | 0 => none
  | fuel + 1 =>
    if bytes = [] then some []
    else
      let leftover := kBlockSize - off
      let off1 := if leftover < kHeaderSize then 0 else off
      let pad := if leftover < kHeaderSize ∧ 0 < leftover then leftover.toNat else 0
      if bytes.take pad = List.replicate pad 0 then
        parseRec (parseGo fuel) off1 (bytes.drop pad)
      else none

/-- Parse a complete byte stream per §6, starting at block offset `off`;
the internal fuel `bytes.length + 1` bounds the number of physical
records plus block switches, each of which consumes bytes. -/
def parseRecords (off : Int) (bytes : List Nat) : Option (List (Nat × List Nat)) :=
  parseGo (bytes.length + 1) off bytes

/-- Concatenation of the payloads of a parsed record list. -/
def concatPayloads (frs : List (Nat × List Nat)) : List Nat :=
  frs.foldr (fun x acc => x.2 ++ acc) []

/-- The record types of an emission trace. -/
def typesOf (tr : List (Int × Nat × List Nat)) : List Nat :=
  tr.map (fun x => x.2.1)

/-- A valid fragment type sequence (spec §8): a single `Full` record, or
exactly one `First`, zero or more `Middle` and exactly one `Last`, in
that order. -/
def validSeq (ts : List Nat) : Prop :=
  ts = [kFullType] ∨
    ∃ k, ts = kFirstType :: (List.replicate k kMiddleType ++ [kLastType])

/-- Fuel sufficiency for the `AddRecord` loop: enough iterations remain
to consume `len` payload bytes from block offset `off`. -/
def suffFuel (fuel : Nat) (off : Int) (len : Nat) : Prop :=
  (len + 2 ≤ fuel ∧ 0 < availOf (switchOff off)) ∨ len + 3 ≤ fuel

/-- Every operation of `δ`, other than the block-trailer padding appends
(whose `Status` the source discards, line 52), succeeded. -/
def okOps (δ : List (OpKind × Option Nat)) : Prop :=
  ∀ q ∈ δ, q.1 ≠ OpKind.pad → q.2 = none

/-- Error propagation discipline of a sequence `δ` of performed file
operations with returned status `s`: on success every non-padding
operation succeeded; on failure `some e`, the operation that failed with
`e` is a non-padding operation, it is the last operation performed (none
follow it), and every earlier non-padding operation succeeded. -/
def errP (δ : List (OpKind × Option Nat)) (s : Option Nat) : Prop :=
  match s with
  | none => okOps δ
  | some e => ∃ pre k, δ = pre ++ [(k, some e)] ∧ k ≠ OpKind.pad ∧ okOps pre

end LevelDBLog

namespace LevelDBLog

theorem extend_typeCrc (t : Nat) (frag : List Nat) :
    crc32c.Extend (typeCrc t) frag = crc32c.Value (t :: frag) := by
  simp only [typeCrc, crc32c.Value, crc32c.Extend, List.foldl_cons,
    List.foldl_nil, Nat.xor_cancel_right]

theorem mask_lt_two_pow (c : Nat) : crc32c.Mask c < 2 ^ 32 :=
  Nat.mod_lt _ (by norm_num)

theorem decode_encodeFixed32 (v : Nat) (h : v < 2 ^ 32) :
    v % 256 + 256 * ((v >>> 8) % 256) + 65536 * ((v >>> 16) % 256) +
      16777216 * ((v >>> 24) % 256) = v := by
  rw [Nat.shiftRight_eq_div_pow, Nat.shiftRight_eq_div_pow,
    Nat.shiftRight_eq_div_pow]
  norm_num
  omega

theorem switchOff_nonneg (off : Int) (h : 0 ≤ off) : 0 ≤ switchOff off := by
  simp only [switchOff, kBlockSize, kHeaderSize]
  split <;> omega

theorem switchOff_add_header_le (off : Int) : switchOff off + kHeaderSize ≤ kBlockSize := by
  simp only [switchOff, kBlockSize, kHeaderSize]
  split <;> omega

theorem availOf_cast (off1 : Int) (h : off1 + kHeaderSize ≤ kBlockSize) :
    (availOf off1 : Int) = kBlockSize - off1 - kHeaderSize := by
  simp only [availOf, kBlockSize, kHeaderSize] at *
  omega

theorem availOf_le (off1 : Int) (h : 0 ≤ off1) : availOf off1 ≤ 32761 := by
  simp only [availOf, kBlockSize, kHeaderSize]
  omega

theorem doOp_log (f : WFile) (k : OpKind) (d : List Nat) :
    ∃ r, (f.doOp k d).1.log = f.log ++ [(k, r)] ∧ (f.doOp k d).2 = r := by
  rcases hres : f.results with _ | ⟨a, rest⟩
  · exact ⟨none, by simp [WFile.doOp, hres]⟩
  · rcases a with _ | e
    · exact ⟨none, by simp [WFile.doOp, hres]⟩
    · exact ⟨some e, by simp [WFile.doOp, hres]⟩

theorem switchBlock_spec (w : Writer) (h : w.dest.results = []) :
    (switchBlock w).dest.written = w.dest.written ++ padOf w.block_offset ∧
      (switchBlock w).block_offset = switchOff w.block_offset ∧
      (switchBlock w).dest.results = [] := by
  obtain ⟨⟨wr, res, lg⟩, off⟩ := w
  simp only at h
  subst h
  by_cases h1 : kBlockSize - off < kHeaderSize <;>
    by_cases h2 : 0 < kBlockSize - off <;>
      simp [switchBlock, padOf, switchOff, WFile.doOp, h1, h2]

theorem switchBlock_offset (w : Writer) :
    (switchBlock w).block_offset = switchOff w.block_offset := by
  by_cases h1 : kBlockSize - w.block_offset < kHeaderSize <;>
    by_cases h2 : 0 < kBlockSize - w.block_offset <;>
      simp [switchBlock, switchOff, h1, h2]

theorem switchBlock_log (w : Writer) :
    ∃ δ, (switchBlock w).dest.log = w.dest.log ++ δ ∧
      ∀ q ∈ δ, q.1 = OpKind.pad := by
  by_cases h1 : kBlockSize - w.block_offset < kHeaderSize
  · by_cases h2 : 0 < kBlockSize - w.block_offset
    · obtain ⟨r, hr, -⟩ :=
        doOp_log w.dest OpKind.pad (List.replicate (kBlockSize - w.block_offset).toNat 0)
      exact ⟨[(OpKind.pad, r)], by simp [switchBlock, h1, h2, hr]⟩
    · exact ⟨[], by simp [switchBlock, h1, h2]⟩
  · exact ⟨[], by simp [switchBlock, h1]⟩

theorem emit_block_offset (w : Writer) (t : Nat) (frag : List Nat) :
    (emitPhysicalRecord w t frag).1.block_offset =
      w.block_offset + kHeaderSize + (frag.length : Int) := by
  rcases hr : w.dest.results with _ | ⟨a, rest⟩
  · simp [emitPhysicalRecord, WFile.doOp, hr]
  · rcases a with _ | e
    · rcases rest with _ | ⟨b, rest2⟩
      · simp [emitPhysicalRecord, WFile.doOp, hr]
      · rcases b with _ | e2
        · rcases rest2 with _ | ⟨c, rest3⟩
          · simp [emitPhysicalRecord, WFile.doOp, hr]
          · rcases c with _ | e3 <;> simp [emitPhysicalRecord, WFile.doOp, hr]
        · simp [emitPhysicalRecord, WFile.doOp, hr]
    · simp [emitPhysicalRecord, WFile.doOp, hr]

theorem emit_success (w : Writer) (t : Nat) (frag : List Nat)
    (h : w.dest.results = []) :
    emitPhysicalRecord w t frag =
      (⟨⟨w.dest.written ++ headerBytes t frag ++ frag, [],
          w.dest.log ++ [(OpKind.header, none), (OpKind.payload, none), (OpKind.flush, none)]⟩,
        w.block_offset + kHeaderSize + (frag.length : Int)⟩, none) := by
  simp [emitPhysicalRecord, WFile.doOp, h]

end LevelDBLog

namespace LevelDBLog

theorem okOps_nil : okOps [] := by
  intro q hq
  simp at hq

theorem okOps_append {a b : List (OpKind × Option Nat)} (ha : okOps a) (hb : okOps b) :
    okOps (a ++ b) := by
  intro q hq hk
  rcases List.mem_append.1 hq with h | h
  · exact ha q h hk
  · exact hb q h hk

theorem okOps_of_pads {a : List (OpKind × Option Nat)}
    (h : ∀ q ∈ a, q.1 = OpKind.pad) : okOps a := by
  intro q hq hk
  exact absurd (h q hq) hk

theorem addRecordGo_success (fuel : Nat) :
    ∀ (w : Writer) (data : List Nat) (isBegin : Bool), w.dest.results = [] →
      (addRecordGo fuel w data isBegin).1.dest.written =
          w.dest.written ++ (runPure fuel w.block_offset data isBegin).1 ∧
        (addRecordGo fuel w data isBegin).1.block_offset =
          (runPure fuel w.block_offset data isBegin).2.2 ∧
        (addRecordGo fuel w data isBegin).2 = none ∧
        (addRecordGo fuel w data isBegin).1.dest.results = [] := by
  induction fuel with
  | zero =>
    intro w data isBegin h
    simp [addRecordGo, runPure, h]
  | succ fuel ih =>
    intro w data isBegin h
    obtain ⟨hsw, hso, hsr⟩ := switchBlock_spec w h
    simp only [addRecordGo, runPure]
    rw [emit_success _ _ _ hsr]
    simp only [hso]
    by_cases hrest :
        data.drop (if data.length < availOf (switchOff w.block_offset)
          then data.length else availOf (switchOff w.block_offset)) = []
    · simp only [hrest, if_pos rfl]
      simp [hsw, hso, List.append_assoc]
      split <;> omega
    · simp only [if_neg hrest]
      have ih2 := ih ⟨⟨(switchBlock w).dest.written ++
          headerBytes
            (recTypeOf isBegin
              (data.length == if data.length < availOf (switchOff w.block_offset)
                then data.length else availOf (switchOff w.block_offset)))
            (data.take (if data.length < availOf (switchOff w.block_offset)
              then data.length else availOf (switchOff w.block_offset))) ++
          data.take (if data.length < availOf (switchOff w.block_offset)
            then data.length else availOf (switchOff w.block_offset)), [],
          (switchBlock w).dest.log ++
            [(OpKind.header, none), (OpKind.payload, none), (OpKind.flush, none)]⟩,
        switchOff w.block_offset + kHeaderSize +
          ((data.take (if data.length < availOf (switchOff w.block_offset)
            then data.length else availOf (switchOff w.block_offset))).length : Int)⟩
        (data.drop (if data.length < availOf (switchOff w.block_offset)
          then data.length else availOf (switchOff w.block_offset))) false rfl
    -- the writer fed to the recursive call
      simp only at ih2
      obtain ⟨a1, a2, a3, a4⟩ := ih2
      refine ⟨?_, ?_, ?_, ?_⟩
      · rw [a1, hsw]
        have hlen : (data.take (if data.length < availOf (switchOff w.block_offset)
            then data.length else availOf (switchOff w.block_offset))).length =
            (if data.length < availOf (switchOff w.block_offset)
              then data.length else availOf (switchOff w.block_offset)) := by
          apply List.length_take_of_le
          split <;> omega
        simp [hlen, List.append_assoc]
      · rw [a2]
        have hlen : (data.take (if data.length < availOf (switchOff w.block_offset)
            then data.length else availOf (switchOff w.block_offset))).length =
            (if data.length < availOf (switchOff w.block_offset)
              then data.length else availOf (switchOff w.block_offset)) := by
          apply List.length_take_of_le
          split <;> omega
        simp [hlen]
      · exact a3
      · exact a4

end LevelDBLog

namespace LevelDBLog

theorem errP_prepend {a δ : List (OpKind × Option Nat)} {s : Option Nat}
    (ha : okOps a) (h : errP δ s) : errP (a ++ δ) s := by
  cases s with
  | none =>
    simp only [errP] at h ⊢
    exact okOps_append ha h
  | some e =>
    simp only [errP] at h ⊢
    obtain ⟨pre, k, h1, h2, h3⟩ := h
    exact ⟨a ++ pre, k, by rw [h1, List.append_assoc], h2, okOps_append ha h3⟩

theorem addRecordGo_offset_inv (fuel : Nat) :
    ∀ (w : Writer) (data : List Nat) (b : Bool), 0 ≤ w.block_offset →
      w.block_offset ≤ kBlockSize →
      0 ≤ (addRecordGo fuel w data b).1.block_offset ∧
        (addRecordGo fuel w data b).1.block_offset ≤ kBlockSize := by
  induction fuel with
  | zero =>
    intro w data b h0 h1
    exact ⟨h0, h1⟩
  | succ fuel ih =>
    intro w data b h0 h1
    have h7 : kHeaderSize = 7 := rfl
    have hB : kBlockSize = 32768 := rfl
    have hso := switchBlock_offset w
    have hn0 : 0 ≤ (switchBlock w).block_offset := by
      rw [hso]; exact switchOff_nonneg _ h0
    have hn1 : (switchBlock w).block_offset + kHeaderSize ≤ kBlockSize := by
      rw [hso]; exact switchOff_add_header_le _
    simp only [addRecordGo]
    set A := availOf (switchBlock w).block_offset with hA
    set fragLen := if data.length < A then data.length else A with hfl
    have hfa : fragLen ≤ A := by rw [hfl]; split <;> omega
    have hfd : fragLen ≤ data.length := by rw [hfl]; split <;> omega
    have htl : (data.take fragLen).length = fragLen := List.length_take_of_le hfd
    have hcast : (A : Int) = kBlockSize - (switchBlock w).block_offset - kHeaderSize := by
      rw [hA]; exact availOf_cast _ hn1
    have hb := emit_block_offset (switchBlock w)
      (recTypeOf b (data.length == fragLen)) (data.take fragLen)
    have hfa' : (fragLen : Int) ≤ (A : Int) := by exact_mod_cast hfa
    have hr0 : 0 ≤ (emitPhysicalRecord (switchBlock w)
        (recTypeOf b (data.length == fragLen)) (data.take fragLen)).1.block_offset := by
      rw [hb, htl]; omega
    have hr1 : (emitPhysicalRecord (switchBlock w)
        (recTypeOf b (data.length == fragLen)) (data.take fragLen)).1.block_offset ≤
        kBlockSize := by
      rw [hb, htl]; omega
    cases hre : (emitPhysicalRecord (switchBlock w)
        (recTypeOf b (data.length == fragLen)) (data.take fragLen)).2 with
    | some e =>
      simp only [hre]
      exact ⟨hr0, hr1⟩
    | none =>
      simp only [hre]
      by_cases hrest : data.drop fragLen = []
      · simp only [hrest, if_pos rfl]
        exact ⟨hr0, hr1⟩
      · simp only [if_neg hrest]
        exact ih _ _ _ hr0 hr1

theorem emit_errSpec (w : Writer) (t : Nat) (frag : List Nat) :
    ∃ δ, (emitPhysicalRecord w t frag).1.dest.log = w.dest.log ++ δ ∧
      errP δ (emitPhysicalRecord w t frag).2 := by
  rcases hr : w.dest.results with _ | ⟨a, rest⟩
  · refine ⟨[(OpKind.header, none), (OpKind.payload, none), (OpKind.flush, none)], ?_, ?_⟩
    · simp [emitPhysicalRecord, WFile.doOp, hr]
    · have hs : (emitPhysicalRecord w t frag).2 = none := by
        simp [emitPhysicalRecord, WFile.doOp, hr]
      rw [hs]; simp only [errP, okOps]; decide
  · rcases a with _ | e
    · rcases rest with _ | ⟨b2, rest2⟩
      · refine ⟨[(OpKind.header, none), (OpKind.payload, none), (OpKind.flush, none)], ?_, ?_⟩
        · simp [emitPhysicalRecord, WFile.doOp, hr]
        · have hs : (emitPhysicalRecord w t frag).2 = none := by
            simp [emitPhysicalRecord, WFile.doOp, hr]
          rw [hs]; simp only [errP, okOps]; decide
      · rcases b2 with _ | e2
        · rcases rest2 with _ | ⟨c, rest3⟩
          · refine ⟨[(OpKind.header, none), (OpKind.payload, none), (OpKind.flush, none)], ?_, ?_⟩
            · simp [emitPhysicalRecord, WFile.doOp, hr]
            · have hs : (emitPhysicalRecord w t frag).2 = none := by
                simp [emitPhysicalRecord, WFile.doOp, hr]
              rw [hs]; simp only [errP, okOps]; decide
          · rcases c with _ | e3
            · refine ⟨[(OpKind.header, none), (OpKind.payload, none), (OpKind.flush, none)], ?_, ?_⟩
              · simp [emitPhysicalRecord, WFile.doOp, hr]
              · have hs : (emitPhysicalRecord w t frag).2 = none := by
                  simp [emitPhysicalRecord, WFile.doOp, hr]
                rw [hs]; simp only [errP, okOps]; decide
            · refine ⟨[(OpKind.header, none), (OpKind.payload, none), (OpKind.flush, some e3)], ?_, ?_⟩
              · simp [emitPhysicalRecord, WFile.doOp, hr]
              · have hs : (emitPhysicalRecord w t frag).2 = some e3 := by
                  simp [emitPhysicalRecord, WFile.doOp, hr]
                rw [hs]; simp only [errP]
                exact ⟨[(OpKind.header, none), (OpKind.payload, none)], OpKind.flush,
                  by simp, by decide, by simp only [okOps]; decide⟩
        · refine ⟨[(OpKind.header, none), (OpKind.payload, some e2)], ?_, ?_⟩
          · simp [emitPhysicalRecord, WFile.doOp, hr]
          · have hs : (emitPhysicalRecord w t frag).2 = some e2 := by
              simp [emitPhysicalRecord, WFile.doOp, hr]
            rw [hs]; simp only [errP]
            exact ⟨[(OpKind.header, none)], OpKind.payload, by simp, by decide,
              by simp only [okOps]; decide⟩
    · refine ⟨[(OpKind.header, some e)], ?_, ?_⟩
      · simp [emitPhysicalRecord, WFile.doOp, hr]
      · have hs : (emitPhysicalRecord w t frag).2 = some e := by
          simp [emitPhysicalRecord, WFile.doOp, hr]
        rw [hs]; simp only [errP]
        exact ⟨[], OpKind.header, by simp, by decide, okOps_nil⟩

theorem addRecordGo_errSpec (fuel : Nat) :
    ∀ (w : Writer) (data : List Nat) (b : Bool),
      ∃ δ, (addRecordGo fuel w data b).1.dest.log = w.dest.log ++ δ ∧
        errP δ (addRecordGo fuel w data b).2 := by
  induction fuel with
  | zero =>
    intro w data b
    exact ⟨[], by simp [addRecordGo], by simp only [addRecordGo, errP]; exact okOps_nil⟩
  | succ fuel ih =>
    intro w data b
    obtain ⟨δ0, hδ0, hpads⟩ := switchBlock_log w
    simp only [addRecordGo]
    set A := availOf (switchBlock w).block_offset with hA
    set fragLen := if data.length < A then data.length else A with hfl
    obtain ⟨δ1, hδ1, herr1⟩ := emit_errSpec (switchBlock w)
      (recTypeOf b (data.length == fragLen)) (data.take fragLen)
    have hok0 : okOps δ0 := okOps_of_pads hpads
    cases hre : (emitPhysicalRecord (switchBlock w)
        (recTypeOf b (data.length == fragLen)) (data.take fragLen)).2 with
    | some e =>
      simp only [hre]
      rw [hre] at herr1
      refine ⟨δ0 ++ δ1, ?_, errP_prepend hok0 herr1⟩
      rw [hδ1, hδ0, List.append_assoc]
    | none =>
      rw [hre] at herr1
      simp only [errP] at herr1
      simp only [hre]
      by_cases hrest : data.drop fragLen = []
      · rw [if_pos hrest]
        refine ⟨δ0 ++ δ1, ?_, ?_⟩
        · rw [hδ1, hδ0, List.append_assoc]
        · simp only [errP]
          exact okOps_append hok0 herr1
      · rw [if_neg hrest]
        obtain ⟨δ2, hδ2, herr2⟩ := ih (emitPhysicalRecord (switchBlock w)
          (recTypeOf b (data.length == fragLen)) (data.take fragLen)).1
          (data.drop fragLen) false
        refine ⟨δ0 ++ δ1 ++ δ2, ?_, ?_⟩
        · rw [hδ2, hδ1, hδ0]
          simp [List.append_assoc]
        · exact errP_prepend (okOps_append hok0 herr1) herr2

end LevelDBLog

namespace LevelDBLog

theorem parseRec_spec (next : Int → List Nat → Option (List (Nat × List Nat)))
    (off1 : Int) (t : Nat) (frag restB : List Nat)
    (hle : off1 + kHeaderSize + (frag.length : Int) ≤ kBlockSize)
    (hlen : frag.length < 65536)
    (ht : t = 1 ∨ t = 2 ∨ t = 3 ∨ t = 4) :
    parseRec next off1 (headerBytes t frag ++ (frag ++ restB)) =
      match next (off1 + kHeaderSize + (frag.length : Int)) restB with
      | some rs => some ((t, frag) :: rs)
      | none => none := by
  have ht4 : 0 < t ∧ t ≤ 4 := by
    rcases ht with rfl | rfl | rfl | rfl <;> exact ⟨by norm_num, by norm_num⟩
  have htm : t % 256 = t := Nat.mod_eq_of_lt (by omega)
  have hn : frag.length % 256 + 256 * ((frag.length >>> 8) % 256) = frag.length := by
    rw [Nat.shiftRight_eq_div_pow]
    norm_num
    omega
  have htype : ¬(t = 0 ∨ kMaxRecordType < t) := by
    simp only [kMaxRecordType]
    omega
  have hcrc := decode_encodeFixed32 (crc32c.Mask (crc32c.Extend (typeCrc t) frag))
    (mask_lt_two_pow _)
  simp only [headerBytes, encodeFixed32, List.cons_append, List.nil_append, parseRec]
  simp only [htm, hn]
  rw [if_neg htype]
  rw [if_neg (by omega : ¬kBlockSize < off1 + kHeaderSize + (frag.length : Int))]
  rw [if_neg (by simp [List.length_append] :
    ¬(frag ++ restB).length < frag.length)]
  rw [List.take_left, List.drop_left]
  rw [if_pos (hcrc.trans (by rw [extend_typeCrc]))]

theorem parseGo_step (g : Nat) (off : Int) (t : Nat) (frag restB : List Nat)
    (h0 : 0 ≤ off) (h1 : off ≤ kBlockSize)
    (hfr : frag.length ≤ availOf (switchOff off))
    (ht : t = 1 ∨ t = 2 ∨ t = 3 ∨ t = 4) :
    parseGo (g + 1) off (padOf off ++ (headerBytes t frag ++ (frag ++ restB))) =
      match parseGo g (switchOff off + kHeaderSize + (frag.length : Int)) restB with
      | some rs => some ((t, frag) :: rs)
      | none => none := by
  have hswn : 0 ≤ switchOff off := switchOff_nonneg off h0
  have hsw7 : switchOff off + kHeaderSize ≤ kBlockSize := switchOff_add_header_le off
  have havc : (availOf (switchOff off) : Int) =
      kBlockSize - switchOff off - kHeaderSize := availOf_cast _ hsw7
  have hfr' : (frag.length : Int) ≤ (availOf (switchOff off) : Int) := by
    exact_mod_cast hfr
  have hle : switchOff off + kHeaderSize + (frag.length : Int) ≤ kBlockSize := by
    omega
  have hlen : frag.length < 65536 := by
    have := availOf_le (switchOff off) hswn
    omega
  have hne : padOf off ++ (headerBytes t frag ++ (frag ++ restB)) ≠ [] := by
    simp [headerBytes, encodeFixed32]
  simp only [parseGo]
  rw [if_neg hne]
  by_cases hA : kBlockSize - off < kHeaderSize
  · have hso : switchOff off = 0 := by rw [switchOff, if_pos hA]
    by_cases hP : 0 < kBlockSize - off
    · have hpad : padOf off = List.replicate (kBlockSize - off).toNat 0 := by
        rw [padOf, if_pos ⟨hA, hP⟩]
      simp only [if_pos hA, if_pos (show kBlockSize - off < kHeaderSize ∧
        0 < kBlockSize - off from ⟨hA, hP⟩)]
      rw [hpad, List.take_left' (by rw [List.length_replicate]),
        List.drop_left' (by rw [List.length_replicate]), if_pos rfl]
      rw [hso] at hle ⊢
      exact parseRec_spec _ _ _ _ _ hle hlen ht
    · have hz : kBlockSize - off = 0 := by omega
      have hpad : padOf off = [] := by
        rw [padOf, if_neg (by omega)]
      simp only [if_pos hA, if_neg (show ¬(kBlockSize - off < kHeaderSize ∧
        0 < kBlockSize - off) by omega)]
      rw [hpad, List.nil_append]
      rw [if_pos (by simp)]
      rw [hso] at hle ⊢
      exact parseRec_spec _ _ _ _ _ hle hlen ht
  · have hso : switchOff off = off := by rw [switchOff, if_neg hA]
    have hpad : padOf off = [] := by
      rw [padOf, if_neg (by tauto)]
    have hnc : ¬(kBlockSize - off < kHeaderSize ∧ 0 < kBlockSize - off) :=
      fun hc => hA hc.1
    simp only [if_neg hA, if_neg hnc]
    rw [hpad, List.nil_append, List.take_zero, List.drop_zero]
    rw [if_pos (by simp)]
    rw [hso] at hle ⊢
    exact parseRec_spec _ _ _ _ _ hle hlen ht

end LevelDBLog

namespace LevelDBLog

theorem parseGo_nil (g : Nat) (off : Int) (h : 0 < g) : parseGo g off [] = some [] := by
  obtain ⟨g', rfl⟩ : ∃ g', g = g' + 1 := ⟨g - 1, by omega⟩
  simp [parseGo]

theorem recTypeOf_cases (a e : Bool) :
    recTypeOf a e = 1 ∨ recTypeOf a e = 2 ∨ recTypeOf a e = 3 ∨ recTypeOf a e = 4 := by
  cases a <;> cases e <;>
    simp [recTypeOf, kFullType, kFirstType, kMiddleType, kLastType]

theorem runPure_parse (fuel : Nat) :
    ∀ (off : Int) (data : List Nat) (b : Bool) (g : Nat),
      suffFuel fuel off data.length → 0 ≤ off → off ≤ kBlockSize → fuel + 1 ≤ g →
      parseGo g off (runPure fuel off data b).1 =
        some ((runPure fuel off data b).2.1.map (fun x => (x.2.1, x.2.2))) := by
  induction fuel with
  | zero =>
    intro off data b g hsuff h0 h1 hg
    rcases hsuff with ⟨h, -⟩ | h <;> omega
  | succ fuel ih =>
    intro off data b g hsuff h0 h1 hg
    obtain ⟨g', rfl⟩ : ∃ g', g = g' + 1 := ⟨g - 1, by omega⟩
    have hswn : 0 ≤ switchOff off := switchOff_nonneg off h0
    have hsw7 : switchOff off + kHeaderSize ≤ kBlockSize := switchOff_add_header_le off
    have havc : (availOf (switchOff off) : Int) =
        kBlockSize - switchOff off - kHeaderSize := availOf_cast _ hsw7
    simp only [runPure]
    set A := availOf (switchOff off) with hA
    set fragLen := if data.length < A then data.length else A with hfl
    have hfd : fragLen ≤ data.length := by rw [hfl]; split <;> omega
    have hfa : fragLen ≤ A := by rw [hfl]; split <;> omega
    have htl : (data.take fragLen).length = fragLen := List.length_take_of_le hfd
    have hfr : (data.take fragLen).length ≤ availOf (switchOff off) := by
      rw [htl]; exact hfa
    have ht := recTypeOf_cases b (data.length == fragLen)
    by_cases hrest : data.drop fragLen = []
    · rw [if_pos hrest]
      have hstep := parseGo_step g' off
        (recTypeOf b (data.length == fragLen)) (data.take fragLen) [] h0 h1 hfr ht
      rw [List.append_nil] at hstep
      rw [htl] at hstep
      simp only [List.append_assoc] at hstep ⊢
      rw [hstep, parseGo_nil g' _ (by omega)]
      simp
    · simp only [if_neg hrest]
      have hnlt : ¬(data.length < A) := by
        intro hc
        apply hrest
        rw [hfl, if_pos hc]
        exact List.drop_length data
      have hfLA : fragLen = A := by rw [hfl, if_neg hnlt]
      have hoff2 : switchOff off + kHeaderSize + (fragLen : Int) = kBlockSize := by
        rw [hfLA]
        omega
      have hrl : (data.drop fragLen).length = data.length - fragLen :=
        List.length_drop _ _
      have hsuff2 : suffFuel fuel (switchOff off + kHeaderSize + (fragLen : Int))
          (data.drop fragLen).length := by
        left
        constructor
        · rcases hsuff with ⟨hf, hAp⟩ | hf <;> omega
        · rw [hoff2]
          have h1 : switchOff kBlockSize = 0 := by decide
          have h2 : availOf 0 = 32761 := by decide
          rw [h1, h2]
          omega
      have hih := ih (switchOff off + kHeaderSize + (fragLen : Int))
        (data.drop fragLen) false g' hsuff2
        (by rw [hoff2]; decide) (by rw [hoff2]) (by omega)
      have hstep := parseGo_step g' off
        (recTypeOf b (data.length == fragLen)) (data.take fragLen)
        (runPure fuel (switchOff off + kHeaderSize + (fragLen : Int))
          (data.drop fragLen) false).1 h0 h1 hfr ht
      simp only [List.append_assoc] at hstep ⊢
      rw [htl] at hstep
      rw [hstep, hih]
      simp

end LevelDBLog

namespace LevelDBLog

theorem headerBytes_length (t : Nat) (frag : List Nat) :
    (headerBytes t frag).length = 7 := by
  simp [headerBytes, encodeFixed32]

theorem concatPayloads_cons (t : Nat) (p : List Nat) (rs : List (Nat × List Nat)) :
    concatPayloads ((t, p) :: rs) = p ++ concatPayloads rs :=
  rfl

theorem runPure_spec (fuel : Nat) :
    ∀ (off : Int) (data : List Nat) (b : Bool),
      suffFuel fuel off data.length → 0 ≤ off → off ≤ kBlockSize →
      concatPayloads ((runPure fuel off data b).2.1.map (fun x => (x.2.1, x.2.2))) =
          data ∧
        data.length + 7 ≤ (runPure fuel off data b).1.length ∧
        (∀ x ∈ (runPure fuel off data b).2.1, 0 ≤ x.1 ∧
          x.1 + kHeaderSize + (x.2.2.length : Int) ≤ kBlockSize ∧
          x.2.2.length ≤ 32761) ∧
        (b = true → validSeq (typesOf (runPure fuel off data b).2.1)) ∧
        (b = false → ∃ k, typesOf (runPure fuel off data b).2.1 =
          List.replicate k kMiddleType ++ [kLastType]) := by
  induction fuel with
  | zero =>
    intro off data b hsuff h0 h1
    rcases hsuff with ⟨h, -⟩ | h <;> omega
  | succ fuel ih =>
    intro off data b hsuff h0 h1
    have hswn : 0 ≤ switchOff off := switchOff_nonneg off h0
    have hsw7 : switchOff off + kHeaderSize ≤ kBlockSize := switchOff_add_header_le off
    have havc : (availOf (switchOff off) : Int) =
        kBlockSize - switchOff off - kHeaderSize := availOf_cast _ hsw7
    have havle : availOf (switchOff off) ≤ 32761 := availOf_le _ hswn
    simp only [runPure]
    set A := availOf (switchOff off) with hA
    set fragLen := if data.length < A then data.length else A with hfl
    have hfd : fragLen ≤ data.length := by rw [hfl]; split <;> omega
    have hfa : fragLen ≤ A := by rw [hfl]; split <;> omega
    have htl : (data.take fragLen).length = fragLen := List.length_take_of_le hfd
    by_cases hrest : data.drop fragLen = []
    · rw [if_pos hrest]
      have hflen : fragLen = data.length := by
        have hld := List.length_drop fragLen data
        rw [hrest] at hld
        simp at hld
        omega
      have htake : data.take fragLen = data := by
        rw [hflen]; exact List.take_length data
      have hbeq : (data.length == fragLen) = true := by
        simp [hflen]
      refine ⟨?_, ?_, ?_, ?_, ?_⟩
      · simp [concatPayloads, htake]
      · simp only [List.length_append, headerBytes_length, htl]
        omega
      · intro x hx
        simp only [List.mem_singleton] at hx
        subst hx
        refine ⟨hswn, ?_, ?_⟩
        · simp only [htl]
          omega
        · simp only [htl]
          omega
      · intro hb
        subst hb
        rw [hbeq]
        left
        simp [typesOf, recTypeOf]
      · intro hb
        subst hb
        rw [hbeq]
        exact ⟨0, by simp [typesOf, recTypeOf]⟩
    · rw [if_neg hrest]
      have hnlt : ¬(data.length < A) := by
        intro hc
        apply hrest
        rw [hfl, if_pos hc]
        exact List.drop_length data
      have hfLA : fragLen = A := by rw [hfl, if_neg hnlt]
      have hne : data.length ≠ fragLen := by
        intro hc
        apply hrest
        rw [← hc]
        exact List.drop_length data
      have hbeq : (data.length == fragLen) = false := by
        simp [hne]
      have hoff2 : switchOff off + kHeaderSize + (fragLen : Int) = kBlockSize := by
        rw [hfLA]; omega
      have hrl : (data.drop fragLen).length = data.length - fragLen :=
        List.length_drop _ _
      have hsuff2 : suffFuel fuel (switchOff off + kHeaderSize + (fragLen : Int))
          (data.drop fragLen).length := by
        left
        constructor
        · rcases hsuff with ⟨hf, hAp⟩ | hf <;> omega
        · rw [hoff2]
          have hx1 : switchOff kBlockSize = 0 := by decide
          have hx2 : availOf 0 = 32761 := by decide
          rw [hx1, hx2]
          omega
      obtain ⟨ic, il, ib, -, it⟩ := ih (switchOff off + kHeaderSize + (fragLen : Int))
        (data.drop fragLen) false hsuff2 (by rw [hoff2]; decide) (by rw [hoff2])
      refine ⟨?_, ?_, ?_, ?_, ?_⟩
      · simp only [List.map_cons, concatPayloads_cons]
        rw [ic]
        exact List.take_append_drop fragLen data
      · simp only [List.length_append, headerBytes_length, htl]
        omega
      · intro x hx
        rcases List.mem_cons.1 hx with hx | hx
        · subst hx
          refine ⟨hswn, ?_, ?_⟩
          · simp only [htl]; omega
          · simp only [htl]; omega
        · exact ib x hx
      · intro hb
        subst hb
        rw [hbeq]
        obtain ⟨k, hk⟩ := it rfl
        right
        refine ⟨k, ?_⟩
        simp only [typesOf, List.map_cons] at hk ⊢
        rw [hk]
        simp [recTypeOf]
      · intro hb
        subst hb
        rw [hbeq]
        obtain ⟨k, hk⟩ := it rfl
        refine ⟨k + 1, ?_⟩
        simp only [typesOf, List.map_cons] at hk ⊢
        rw [hk]
        simp [recTypeOf, List.replicate_succ]

end LevelDBLog

namespace LevelDBLog

theorem extend_nil (c : Nat) : crc32c.Extend c [] = c := by
  simp [crc32c.Extend, Nat.xor_cancel_right]

theorem headerBytes_full_empty :
    headerBytes kFullType [] =
      encodeFixed32 (crc32c.Mask (crc32c.Value [kFullType])) ++ [0, 0, kFullType] := by
  rw [headerBytes, typeCrc, extend_nil]
  norm_num [kFullType]

theorem switchBlock_id (w : Writer) (h : ¬kBlockSize - w.block_offset < kHeaderSize) :
    switchBlock w = w := by
  simp only [switchBlock]
  rw [if_neg h]

theorem runPure_exact (fuel : Nat) (off : Int) (data : List Nat)
    (hso : switchOff off = off) (hav : availOf off = data.length)
    (hpad : padOf off = []) :
    runPure (fuel + 1) off data true =
      (headerBytes kFullType data ++ data, [(off, kFullType, data)],
        off + kHeaderSize + (data.length : Int)) := by
  have hrt : recTypeOf true (data.length == data.length) = kFullType := by
    simp [recTypeOf]
  simp only [runPure, hso, hav, hpad]
  rw [if_neg (lt_irrefl data.length)]
  rw [hrt, List.take_length, List.drop_length, if_pos rfl]
  rw [List.nil_append]

theorem exactFit_helper (w : Writer) (data : List Nat)
    (hres : w.dest.results = []) (h0 : 0 ≤ w.block_offset)
    (hlen : w.block_offset + kHeaderSize + (data.length : Int) = kBlockSize) :
    (addRecord w data).2 = none ∧
      (addRecord w data).1.block_offset = kBlockSize ∧
      (addRecord w data).1.dest.written =
        w.dest.written ++ headerBytes kFullType data ++ data ∧
      (runPure (data.length + 3) w.block_offset data true).2.1 =
        [(w.block_offset, kFullType, data)] := by
  have hkh : kHeaderSize = 7 := rfl
  have hkb : kBlockSize = 32768 := rfl
  have hnl : ¬kBlockSize - w.block_offset < kHeaderSize := by omega
  have hso : switchOff w.block_offset = w.block_offset := by
    rw [switchOff, if_neg hnl]
  have hpad : padOf w.block_offset = [] := by
    rw [padOf, if_neg (fun hc => hnl hc.1)]
  have hav : availOf w.block_offset = data.length := by
    simp only [availOf]
    omega
  have hkey : data.length + 3 = data.length + 2 + 1 := rfl
  have hrun : runPure (data.length + 3) w.block_offset data true =
      (headerBytes kFullType data ++ data, [(w.block_offset, kFullType, data)],
        w.block_offset + kHeaderSize + (data.length : Int)) := by
    rw [hkey]
    exact runPure_exact (data.length + 2) w.block_offset data hso hav hpad
  obtain ⟨hw, hoffeq, hst, -⟩ := addRecordGo_success (data.length + 3) w data true hres
  refine ⟨hst, ?_, ?_, ?_⟩
  · rw [hrun] at hoffeq
    exact hoffeq.trans hlen
  · rw [hrun] at hw
    rw [show (addRecord w data).1.dest.written =
      (addRecordGo (data.length + 3) w data true).1.dest.written from rfl, hw]
    rw [← List.append_assoc]
  · rw [hrun]

end LevelDBLog

namespace LevelDBLog

theorem runPure_empty (fuel : Nat) (off : Int) :
    runPure (fuel + 1) off [] true =
      (padOf off ++ headerBytes kFullType [],
        [(switchOff off, kFullType, [])], switchOff off + kHeaderSize) := by
  have hfl0 : (if (0 : Nat) < availOf (switchOff off) then 0
      else availOf (switchOff off)) = 0 := by
    split <;> omega
  have hrt : recTypeOf true ((0 : Nat) == 0) = kFullType := rfl
  simp only [runPure, List.length_nil, hfl0, List.take_nil, List.drop_nil, hrt,
    List.append_nil, Nat.cast_zero, add_zero]
  rw [if_pos trivial]

/-- C1: for every payload written by `AddRecord` from any valid block
offset with all file operations succeeding, parsing the appended bytes
per the §6 block/header format succeeds and reconstructs exactly the
original payload, and the fragment types form a valid sequence (a single
`Full`, or one `First`, zero or more `Middle` and one `Last`, in that
order). -/
theorem C1_addRecord_roundtrip (w : Writer) (data : List Nat)
    (hres : w.dest.results = []) (h0 : 0 ≤ w.block_offset)
    (h1 : w.block_offset ≤ kBlockSize) :
    ∃ frs : List (Nat × List Nat),
      parseRecords w.block_offset
          (((addRecord w data).1.dest.written).drop w.dest.written.length) =
        some frs ∧
      concatPayloads frs = data ∧
      validSeq (frs.map Prod.fst) := by
  have hsuff : suffFuel (data.length + 3) w.block_offset data.length :=
    Or.inr (by omega)
  obtain ⟨hw, -, -, -⟩ := addRecordGo_success (data.length + 3) w data true hres
  obtain ⟨hc, hl, -, hv, -⟩ := runPure_spec (data.length + 3) w.block_offset data true
    hsuff h0 h1
  refine ⟨(runPure (data.length + 3) w.block_offset data true).2.1.map
    (fun x => (x.2.1, x.2.2)), ?_, hc, ?_⟩
  · rw [show (addRecord w data).1.dest.written =
      (addRecordGo (data.length + 3) w data true).1.dest.written from rfl, hw,
      List.drop_left, parseRecords]
    exact runPure_parse (data.length + 3) w.block_offset data true
      ((runPure (data.length + 3) w.block_offset data true).1.length + 1)
      hsuff h0 h1 (by omega)
  · have hmap : ((runPure (data.length + 3) w.block_offset data true).2.1.map
        (fun x => (x.2.1, x.2.2))).map Prod.fst =
        typesOf (runPure (data.length + 3) w.block_offset data true).2.1 := by
      simp [typesOf, List.map_map]
    rw [hmap]
    exact hv rfl

/-- Witness for C1 at a concrete input: a fresh writer and the payload
`[10, 20, 30]`. -/
theorem C1_addRecord_roundtrip_witness :
    (Writer.mk0 ⟨[], [], []⟩).dest.results = [] ∧
      0 ≤ (Writer.mk0 ⟨[], [], []⟩).block_offset ∧
      (Writer.mk0 ⟨[], [], []⟩).block_offset ≤ kBlockSize ∧
      ∃ frs : List (Nat × List Nat),
        parseRecords (Writer.mk0 ⟨[], [], []⟩).block_offset
            (((addRecord (Writer.mk0 ⟨[], [], []⟩) [10, 20, 30]).1.dest.written).drop
              (Writer.mk0 ⟨[], [], []⟩).dest.written.length) =
          some frs ∧
        concatPayloads frs = [10, 20, 30] ∧
        validSeq (frs.map Prod.fst) :=
  ⟨rfl, by decide, by decide,
    C1_addRecord_roundtrip (Writer.mk0 ⟨[], [], []⟩) [10, 20, 30] rfl
      (by decide) (by decide)⟩

/-- C2: the stored 4-byte checksum of every emitted physical record is
the masked CRC-32C of the type byte followed by the payload bytes; the
seed-extension computation of the source (`Extend(type_crc_[t], payload)`)
agrees with the direct CRC of `type_byte :: payload`, so the checksum is
a pure function of type tag and payload, independent of block position,
and two records with the same type and payload carry equal checksums. -/
theorem C2_checksum_pure_function (t : Nat) (frag : List Nat) (w : Writer)
    (hres : w.dest.results = []) :
    (headerBytes t frag).take 4 =
        encodeFixed32 (crc32c.Mask (crc32c.Value (t :: frag))) ∧
      crc32c.Extend (typeCrc t) frag = crc32c.Value (t :: frag) ∧
      (emitPhysicalRecord w t frag).1.dest.written =
        w.dest.written ++ headerBytes t frag ++ frag := by
  refine ⟨?_, extend_typeCrc t frag, ?_⟩
  · rw [headerBytes, List.take_left' (by simp [encodeFixed32]), extend_typeCrc]
  · rw [emit_success w t frag hres]

/-- Witness for C2 at a concrete input: type `kFullType`, payload `[42]`,
fresh writer. -/
theorem C2_checksum_pure_function_witness :
    (Writer.mk0 ⟨[], [], []⟩).dest.results = [] ∧
      ((headerBytes kFullType [42]).take 4 =
          encodeFixed32 (crc32c.Mask (crc32c.Value (kFullType :: [42]))) ∧
        crc32c.Extend (typeCrc kFullType) [42] = crc32c.Value (kFullType :: [42]) ∧
        (emitPhysicalRecord (Writer.mk0 ⟨[], [], []⟩) kFullType [42]).1.dest.written =
          (Writer.mk0 ⟨[], [], []⟩).dest.written ++ headerBytes kFullType [42] ++ [42]) :=
  ⟨rfl, C2_checksum_pure_function kFullType [42] (Writer.mk0 ⟨[], [], []⟩) rfl⟩

/-- C4: `EmitPhysicalRecord` advances the block offset by
`kHeaderSize + n` regardless of whether the header append, the payload
append or the flush succeeded (the offset update is unconditional; no
rollback of writer state on error). -/
theorem C4_block_offset_always_advances (w : Writer) (t : Nat) (frag : List Nat) :
    (emitPhysicalRecord w t frag).1.block_offset =
      w.block_offset + kHeaderSize + (frag.length : Int) :=
  emit_block_offset w t frag

end LevelDBLog

namespace LevelDBLog

/-- C3 counterexample: the claim "no error from any underlying Append or
Flush is silently swallowed" is false.  From block offset 32765
(reachable, e.g. by a 32758-byte record from a fresh writer) with a
schedule making the first file operation fail, `AddRecord` performs the
block-trailer padding `Append`, which fails with error 1, ignores that
status (log_writer.cc line 52 discards the returned `Status`), and still
returns OK. -/
theorem C3_counterexample_padding_error_swallowed :
    (addRecord ⟨⟨[], [some 1], []⟩, 32765⟩ [5]).2 = none ∧
      (OpKind.pad, some 1) ∈ (addRecord ⟨⟨[], [some 1], []⟩, 32765⟩ [5]).1.dest.log := by
  decide

/-- C3 amended: for every `AddRecord` call, among the file operations it
performs, if any operation other than the block-trailer padding append
fails, the first such error is returned, that operation is the last one
performed (no further fragments or operations are attempted), and every
earlier non-padding operation succeeded; on an OK return every
non-padding operation succeeded.  The status of the block-trailer
padding `Append` is discarded by the source and does not influence the
returned status. -/
theorem C3_amended_error_propagation (w : Writer) (data : List Nat) :
    errP ((addRecord w data).1.dest.log.drop w.dest.log.length)
      (addRecord w data).2 := by
  obtain ⟨δ, hδ, herr⟩ := addRecordGo_errSpec (data.length + 3) w data true
  rw [show (addRecord w data).1.dest.log =
    (addRecordGo (data.length + 3) w data true).1.dest.log from rfl, hδ,
    List.drop_left]
  exact herr

/-- C5 counterexample: the strict invariant `block_offset < kBlockSize`
is false after an `AddRecord` call whose single `Full` record exactly
fills the current block: from a fresh writer, a 32761-byte payload
leaves `block_offset = kBlockSize = 32768`. -/
theorem C5_counterexample_offset_reaches_block_size :
    ¬(0 ≤ (addRecord (Writer.mk0 ⟨[], [], []⟩) (List.replicate 32761 0)).1.block_offset ∧
      (addRecord (Writer.mk0 ⟨[], [], []⟩) (List.replicate 32761 0)).1.block_offset <
        kBlockSize) := by
  obtain ⟨-, hoff, -, -⟩ := exactFit_helper (Writer.mk0 ⟨[], [], []⟩)
    (List.replicate 32761 0) rfl (by decide)
    (by rw [List.length_replicate]; decide)
  rw [hoff]
  intro hc
  exact absurd hc.2 (lt_irrefl _)

/-- C5 amended: the writer's block offset satisfies
`0 ≤ offset ≤ kBlockSize` (the upper bound is attained exactly when a
record fills the block): it holds at construction and is preserved by
every `AddRecord` call, for every schedule of file-operation results. -/
theorem C5_amended_offset_invariant :
    (∀ f : WFile, (Writer.mk0 f).block_offset = 0) ∧
      ∀ (w : Writer) (data : List Nat), 0 ≤ w.block_offset →
        w.block_offset ≤ kBlockSize →
        0 ≤ (addRecord w data).1.block_offset ∧
          (addRecord w data).1.block_offset ≤ kBlockSize := by
  refine ⟨fun f => rfl, fun w data h0 h1 => ?_⟩
  exact addRecordGo_offset_inv (data.length + 3) w data true h0 h1

/-- Witness for the amended C5 at a concrete input: a fresh writer and
the payload `[2]`. -/
theorem C5_amended_offset_invariant_witness :
    0 ≤ (Writer.mk0 ⟨[], [], []⟩).block_offset ∧
      (Writer.mk0 ⟨[], [], []⟩).block_offset ≤ kBlockSize ∧
      (0 ≤ (addRecord (Writer.mk0 ⟨[], [], []⟩) [2]).1.block_offset ∧
        (addRecord (Writer.mk0 ⟨[], [], []⟩) [2]).1.block_offset ≤ kBlockSize) :=
  ⟨by decide, by decide,
    C5_amended_offset_invariant.2 (Writer.mk0 ⟨[], [], []⟩) [2] (by decide) (by decide)⟩

/-- C6: the block-switch step executed at the start of every `AddRecord`
loop iteration (`switchBlock`, log_writer.cc lines 42-56; `addRecordGo`
applies it first in every iteration): when fewer than `kHeaderSize`
bytes are left in the block, the offset is reset to 0 so the next
fragment's header begins at offset 0 of a new block, and exactly
`leftover` zero bytes are appended when `leftover > 0` while nothing is
written when `leftover = 0`.  That the trailer is pure padding, never
parsed as a record, is established by the round-trip theorem for C1,
whose §6 parser consumes it as the block trailer. -/
theorem C6_block_trailer_padding (w : Writer) (hres : w.dest.results = []) :
    (kBlockSize - w.block_offset < kHeaderSize →
        (switchBlock w).block_offset = 0) ∧
      (kBlockSize - w.block_offset < kHeaderSize →
        0 < kBlockSize - w.block_offset →
        (switchBlock w).dest.written = w.dest.written ++
          List.replicate (kBlockSize - w.block_offset).toNat 0) ∧
      (kBlockSize - w.block_offset = 0 →
        (switchBlock w).dest.written = w.dest.written) := by
  obtain ⟨hw, ho, -⟩ := switchBlock_spec w hres
  refine ⟨fun h => ?_, fun h hp => ?_, fun h => ?_⟩
  · rw [ho, switchOff, if_pos h]
  · rw [hw, padOf, if_pos ⟨h, hp⟩]
  · rw [hw, padOf, if_neg (by omega)]
    simp

/-- Witness for C6 at a concrete input: a writer at block offset 32763
(5 bytes left in the block). -/
theorem C6_block_trailer_padding_witness :
    (⟨⟨[], [], []⟩, 32763⟩ : Writer).dest.results = [] ∧
      ((kBlockSize - (⟨⟨[], [], []⟩, 32763⟩ : Writer).block_offset < kHeaderSize →
          (switchBlock ⟨⟨[], [], []⟩, 32763⟩).block_offset = 0) ∧
        (kBlockSize - (⟨⟨[], [], []⟩, 32763⟩ : Writer).block_offset < kHeaderSize →
          0 < kBlockSize - (⟨⟨[], [], []⟩, 32763⟩ : Writer).block_offset →
          (switchBlock ⟨⟨[], [], []⟩, 32763⟩).dest.written =
            (⟨⟨[], [], []⟩, 32763⟩ : Writer).dest.written ++
              List.replicate (kBlockSize -
                (⟨⟨[], [], []⟩, 32763⟩ : Writer).block_offset).toNat 0) ∧
        (kBlockSize - (⟨⟨[], [], []⟩, 32763⟩ : Writer).block_offset = 0 →
          (switchBlock ⟨⟨[], [], []⟩, 32763⟩).dest.written =
            (⟨⟨[], [], []⟩, 32763⟩ : Writer).dest.written)) :=
  ⟨rfl, C6_block_trailer_padding ⟨⟨[], [], []⟩, 32763⟩ rfl⟩

end LevelDBLog

namespace LevelDBLog

/-- C7: an `AddRecord` call with a zero-length payload runs the loop body
exactly once and produces exactly one physical record, of type `Full`,
with length field 0 and checksum `masked(CRC32C(type_byte_Full))`, with
no payload bytes appended (at most a block trailer of `p ≤ 6` zero bytes
precedes the 7 header bytes, when the previous block had to be closed). -/
theorem C7_zero_length_record (w : Writer) (hres : w.dest.results = []) :
    ∃ p, p ≤ 6 ∧ (addRecord w []).2 = none ∧
      (addRecord w []).1.dest.written = w.dest.written ++ List.replicate p 0 ++
        (encodeFixed32 (crc32c.Mask (crc32c.Value [kFullType])) ++
          [0, 0, kFullType]) ∧
      (runPure 3 w.block_offset [] true).2.1 =
        [(switchOff w.block_offset, kFullType, [])] := by
  have hkh : kHeaderSize = 7 := rfl
  obtain ⟨hw, -, hst, -⟩ := addRecordGo_success (([] : List Nat).length + 3) w [] true hres
  have hkey : ([] : List Nat).length + 3 = 2 + 1 := rfl
  rw [hkey, runPure_empty 2 w.block_offset] at hw
  obtain ⟨p, hp6, hpadp⟩ : ∃ p, p ≤ 6 ∧
      padOf w.block_offset = List.replicate p 0 := by
    by_cases hc : kBlockSize - w.block_offset < kHeaderSize ∧
        0 < kBlockSize - w.block_offset
    · rw [padOf, if_pos hc]
      exact ⟨(kBlockSize - w.block_offset).toNat,
        by obtain ⟨a, b⟩ := hc; omega, rfl⟩
    · rw [padOf, if_neg hc]
      exact ⟨0, by omega, rfl⟩
  refine ⟨p, hp6, hst, ?_, ?_⟩
  · rw [show (addRecord w []).1.dest.written =
      (addRecordGo (([] : List Nat).length + 3) w [] true).1.dest.written from rfl,
      hkey, hw, hpadp, headerBytes_full_empty]
    simp only [List.append_assoc]
  · have hkey3 : (3 : Nat) = 2 + 1 := rfl
    rw [hkey3, runPure_empty 2 w.block_offset]

/-- Witness for C7 at a concrete input: a fresh writer. -/
theorem C7_zero_length_record_witness :
    (Writer.mk0 ⟨[], [], []⟩).dest.results = [] ∧
      ∃ p, p ≤ 6 ∧ (addRecord (Writer.mk0 ⟨[], [], []⟩) []).2 = none ∧
        (addRecord (Writer.mk0 ⟨[], [], []⟩) []).1.dest.written =
          (Writer.mk0 ⟨[], [], []⟩).dest.written ++ List.replicate p 0 ++
            (encodeFixed32 (crc32c.Mask (crc32c.Value [kFullType])) ++
              [0, 0, kFullType]) ∧
        (runPure 3 (Writer.mk0 ⟨[], [], []⟩).block_offset [] true).2.1 =
          [(switchOff (Writer.mk0 ⟨[], [], []⟩).block_offset, kFullType, [])] :=
  ⟨rfl, C7_zero_length_record (Writer.mk0 ⟨[], [], []⟩) rfl⟩

/-- C8: an `AddRecord` call whose payload exactly fills the remaining
payload capacity of the current block (`block_offset + kHeaderSize +
length = kBlockSize`) succeeds with exactly one physical record of type
`Full`, writes no padding bytes (the appended bytes are exactly header
plus payload), and leaves `block_offset = kBlockSize`. -/
theorem C8_exact_fit_full_record (w : Writer) (data : List Nat)
    (hres : w.dest.results = []) (h0 : 0 ≤ w.block_offset)
    (hlen : w.block_offset + kHeaderSize + (data.length : Int) = kBlockSize) :
    (addRecord w data).2 = none ∧
      (addRecord w data).1.block_offset = kBlockSize ∧
      (addRecord w data).1.dest.written =
        w.dest.written ++ headerBytes kFullType data ++ data ∧
      (runPure (data.length + 3) w.block_offset data true).2.1 =
        [(w.block_offset, kFullType, data)] :=
  exactFit_helper w data hres h0 hlen

/-- Witness for C8 at a concrete input: block offset 32755 and the
6-byte payload `[1, 2, 3, 4, 5, 6]` (32755 + 7 + 6 = 32768). -/
theorem C8_exact_fit_full_record_witness :
    (⟨⟨[], [], []⟩, 32755⟩ : Writer).dest.results = [] ∧
      0 ≤ (⟨⟨[], [], []⟩, 32755⟩ : Writer).block_offset ∧
      (⟨⟨[], [], []⟩, 32755⟩ : Writer).block_offset + kHeaderSize +
        (([1, 2, 3, 4, 5, 6] : List Nat).length : Int) = kBlockSize ∧
      ((addRecord ⟨⟨[], [], []⟩, 32755⟩ [1, 2, 3, 4, 5, 6]).2 = none ∧
        (addRecord ⟨⟨[], [], []⟩, 32755⟩ [1, 2, 3, 4, 5, 6]).1.block_offset =
          kBlockSize ∧
        (addRecord ⟨⟨[], [], []⟩, 32755⟩ [1, 2, 3, 4, 5, 6]).1.dest.written =
          (⟨⟨[], [], []⟩, 32755⟩ : Writer).dest.written ++
            headerBytes kFullType [1, 2, 3, 4, 5, 6] ++ [1, 2, 3, 4, 5, 6] ∧
        (runPure (([1, 2, 3, 4, 5, 6] : List Nat).length + 3)
            (⟨⟨[], [], []⟩, 32755⟩ : Writer).block_offset [1, 2, 3, 4, 5, 6]
            true).2.1 =
          [((⟨⟨[], [], []⟩, 32755⟩ : Writer).block_offset, kFullType,
            [1, 2, 3, 4, 5, 6])]) :=
  ⟨rfl, by decide, by decide,
    C8_exact_fit_full_record ⟨⟨[], [], []⟩, 32755⟩ [1, 2, 3, 4, 5, 6] rfl
      (by decide) (by decide)⟩

theorem shape_getD (k : Nat) : ∀ j ≤ k,
    (List.replicate k kMiddleType ++ [kLastType]).getD j 0 =
      if j = k then kLastType else kMiddleType := by
  induction k with
  | zero =>
    intro j hj
    have hj0 : j = 0 := by omega
    subst hj0
    rfl
  | succ k ih =>
    intro j hj
    cases j with
    | zero =>
      rw [List.replicate_succ, List.cons_append, List.getD_cons_zero,
        if_neg (by omega)]
    | succ j =>
      rw [List.replicate_succ, List.cons_append, List.getD_cons_succ,
        ih j (by omega)]
      by_cases hjk : j = k
      · rw [if_pos hjk, if_pos (by omega)]
      · rw [if_neg hjk, if_neg (by omega)]

/-- C9: the fragment type emitted by each `AddRecord` loop iteration is
determined exactly by the begin/end flags (`begin ∧ end → Full`,
`begin → First`, `end → Last`, otherwise `Middle`), and since `begin`
holds only on the first iteration and `end` holds exactly on the last
(the fragment that exhausts the input), the `i`-th emitted fragment is
`Full` iff it is both first and last, `First` iff first only, `Last` iff
last only, and `Middle` otherwise. -/
theorem C9_fragment_type_selection (off : Int) (data : List Nat)
    (h0 : 0 ≤ off) (h1 : off ≤ kBlockSize) :
    (recTypeOf true true = kFullType ∧ recTypeOf true false = kFirstType ∧
      recTypeOf false true = kLastType ∧ recTypeOf false false = kMiddleType) ∧
      ∀ i < (typesOf (runPure (data.length + 3) off data true).2.1).length,
        (typesOf (runPure (data.length + 3) off data true).2.1).getD i 0 =
          if i = 0 then
            (if i + 1 = (typesOf (runPure (data.length + 3) off data true).2.1).length
              then kFullType else kFirstType)
          else
            (if i + 1 = (typesOf (runPure (data.length + 3) off data true).2.1).length
              then kLastType else kMiddleType) := by
  refine ⟨⟨rfl, rfl, rfl, rfl⟩, ?_⟩
  obtain ⟨-, -, -, hv, -⟩ := runPure_spec (data.length + 3) off data true
    (Or.inr (by omega)) h0 h1
  rcases hv rfl with hsh | ⟨k, hsh⟩
  · rw [hsh]
    intro i hi
    simp only [List.length_singleton] at hi
    have hi0 : i = 0 := by omega
    subst hi0
    rfl
  · rw [hsh]
    have hlen2 : (kFirstType :: (List.replicate k kMiddleType ++ [kLastType])).length
        = k + 2 := by
      simp [List.length_append, List.length_replicate]
    rw [hlen2]
    intro i hi
    cases i with
    | zero =>
      rw [List.getD_cons_zero, if_pos rfl, if_neg (by omega)]
    | succ j =>
      rw [List.getD_cons_succ, shape_getD k j (by omega)]
      rw [if_neg (Nat.succ_ne_zero j)]
      by_cases hjk : j = k
      · rw [if_pos hjk, if_pos (by omega)]
      · rw [if_neg hjk, if_neg (by omega)]

/-- Witness for C9 at a concrete input: offset 0 and payload `[1, 2]`. -/
theorem C9_fragment_type_selection_witness :
    0 ≤ (0 : Int) ∧ (0 : Int) ≤ kBlockSize ∧
      ((recTypeOf true true = kFullType ∧ recTypeOf true false = kFirstType ∧
        recTypeOf false true = kLastType ∧ recTypeOf false false = kMiddleType) ∧
        ∀ i < (typesOf (runPure (([1, 2] : List Nat).length + 3) 0 [1, 2] true).2.1).length,
          (typesOf (runPure (([1, 2] : List Nat).length + 3) 0 [1, 2] true).2.1).getD i 0 =
            if i = 0 then
              (if i + 1 = (typesOf (runPure (([1, 2] : List Nat).length + 3) 0
                  [1, 2] true).2.1).length then kFullType else kFirstType)
            else
              (if i + 1 = (typesOf (runPure (([1, 2] : List Nat).length + 3) 0
                  [1, 2] true).2.1).length then kLastType else kMiddleType)) :=
  ⟨by decide, by decide, C9_fragment_type_selection 0 [1, 2] (by decide) (by decide)⟩

/-- C10: every fragment that the `AddRecord` loop passes to
`EmitPhysicalRecord`, starting from any block offset in
`[0, kBlockSize]`, has length at most `kBlockSize - kHeaderSize = 32761
≤ 0xffff` (so the 16-bit length field never truncates) and satisfies
`block_offset + kHeaderSize + n ≤ kBlockSize`: both assertions at the
top of `EmitPhysicalRecord` (log_writer.cc lines 94-95) hold. -/
theorem C10_emit_preconditions (off : Int) (data : List Nat)
    (h0 : 0 ≤ off) (h1 : off ≤ kBlockSize) :
    ∀ x ∈ (runPure (data.length + 3) off data true).2.1,
      x.2.2.length ≤ 32761 ∧ (32761 : Nat) ≤ 0xffff ∧ 0 ≤ x.1 ∧
        x.1 + kHeaderSize + (x.2.2.length : Int) ≤ kBlockSize := by
  intro x hx
  obtain ⟨-, -, hb, -, -⟩ := runPure_spec (data.length + 3) off data true
    (Or.inr (by omega)) h0 h1
  obtain ⟨ha, hbnd, hle⟩ := hb x hx
  exact ⟨hle, by norm_num, ha, hbnd⟩

/-- Witness for C10 at a concrete input: offset 0 and payload `[5]`. -/
theorem C10_emit_preconditions_witness :
    0 ≤ (0 : Int) ∧ (0 : Int) ≤ kBlockSize ∧
      ∀ x ∈ (runPure (([5] : List Nat).length + 3) 0 [5] true).2.1,
        x.2.2.length ≤ 32761 ∧ (32761 : Nat) ≤ 0xffff ∧ 0 ≤ x.1 ∧
          x.1 + kHeaderSize + (x.2.2.length : Int) ≤ kBlockSize :=
  ⟨by decide, by decide, C10_emit_preconditions 0 [5] (by decide) (by decide)⟩

end LevelDBLog
